import Mathlib

/-!
Shallow embedding of `src/pow.cpp` (Fractal Bitcoin proof-of-work core).

256-bit unsigned magnitudes (`arith_uint256`) are represented as `Nat`,
with explicit `% 2 ^ 256` wherever the 256-bit type can wrap.
C++ `int64_t` values are represented as `Int`; C++ `/` and `%` on signed
integers truncate toward zero, so they are embedded as `Int.tdiv` and
`Int.tmod`; the arithmetic right shift `>> 16` on a signed value floors,
so it is embedded as floor division (`Int.ediv` by `65536`, which equals
the floor for a positive divisor).
-/

namespace Fractal

/-- The modulus `2 ^ 256` of the 256-bit magnitude type. -/
def U256 : Nat := 2 ^ 256

/-- Anchor record from `Consensus::Params::ASERTAnchor` (height, block time,
per-lane legacy packed targets). -/
structure ASERTAnchor where
  nHeight : Int
  nBlockTime : Int
  nBitsLegacy : Nat
  nBitsAuxPow : Nat

/-- The fields of `Consensus::Params` read by `pow.cpp`.
`difficultyAdjustmentInterval` stands for the
`DifficultyAdjustmentInterval()` accessor, whose body is not part of the
sources at hand; per the spec it is the configured "retarget interval
(blocks)" of the legacy regime, so it is kept as an abstract parameter. -/
structure ConsensusParams where
  powLimit : Nat
  nPowTargetSpacingLegacy : Int
  nPowTargetSpacingAuxPow : Int
  nPowTargetTimespan : Int
  difficultyAdjustmentInterval : Int
  nASERTHalfLife : Int
  fPowAllowMinDifficultyBlocks : Bool
  fPowNoRetargeting : Bool
  asertAnchorParams : ASERTAnchor

/-- Modelled from the spec: `arith_uint256::SetCompact` decoded value
(the `arith_uint256` sources are not under `src/`).  Packed format per the
spec: top byte is the exponent (number of significant base-256 bytes), low
3 bytes minus the sign bit `0x00800000` are the mantissa; decoded value is
mantissa `* 256 ^ (exponent - 3)` when the exponent is at least 3 (wrapping
in the 256-bit magnitude), else the mantissa shifted right accordingly. -/
def setCompactValue (nCompact : Nat) : Nat :=
  let nSize := nCompact / 2 ^ 24
  let nWord := nCompact % 2 ^ 23
  if nSize ≤ 3 then nWord / 2 ^ (8 * (3 - nSize))
  else (nWord * 2 ^ (8 * (nSize - 3))) % U256

/-- Modelled from the spec: the "negative" decode flag — set when the
mantissa is nonzero and the sign bit `0x00800000` is set. -/
def setCompactNegative (nCompact : Nat) : Bool :=
  nCompact % 2 ^ 23 ≠ 0 && nCompact / 2 ^ 23 % 2 = 1

/-- Modelled from the spec: the "overflow" decode flag — set when a nonzero
mantissa scaled by the exponent would exceed the 256-bit magnitude. -/
def setCompactOverflow (nCompact : Nat) : Bool :=
  let nSize := nCompact / 2 ^ 24
  let nWord := nCompact % 2 ^ 23
  nWord ≠ 0 && 3 < nSize && U256 ≤ nWord * 2 ^ (8 * (nSize - 3))

/-- Bit length computed by fueled structural recursion (so that it
reduces inside the kernel); with fuel 256 it is the bit length of any
256-bit magnitude. -/
def sizeFuel : Nat → Nat → Nat
  | 0, _ => 0
  | fuel + 1, x => if x = 0 then 0 else sizeFuel fuel (x / 2) + 1

/-- Bit length of a 256-bit magnitude (`arith_uint256::bits()`). -/
def nbits (x : Nat) : Nat := sizeFuel 256 x

/-- Modelled from the spec: `arith_uint256::GetCompact` — encode a 256-bit
magnitude into the packed 32-bit form: exponent = number of significant
bytes, mantissa = leading (up to) 3 bytes; when the would-be mantissa has
the sign bit `0x00800000` set, shift it down a byte and bump the
exponent. -/
def getCompact (value : Nat) : Nat :=
  let nSize := (nbits value + 7) / 8
  let mant := if nSize ≤ 3 then value * 2 ^ (8 * (3 - nSize))
              else value / 2 ^ (8 * (nSize - 3))
  if 2 ^ 23 ≤ mant then (mant / 2 ^ 8) + (nSize + 1) * 2 ^ 24
  else mant + nSize * 2 ^ 24

/-- The fixed-point factor `65536 * 2 ^ (frac / 65536)` from
`CalculateASERT` (`pow.cpp` lines 127-134): cubic polynomial approximation
in unsigned 64-bit arithmetic, then shifted down 48 bits. -/
def asertFactor (frac : Nat) : Nat :=
  65536 + ((195766423245049 * frac + 971821376 * frac * frac
            + 5127 * frac * frac * frac + 2 ^ 47) % 2 ^ 64) / 2 ^ 48

/-- ASERT calculation function (`CalculateASERT`, `pow.cpp` lines 81-164).
Targets are `Nat` magnitudes below `2 ^ 256`; the shift counts handed to
the `arith_uint256` shift operators are modelled from the spec as plain
nonnegative counts ("right-shift (floor) by its absolute value" /
"left-shift but explicitly detect overflow by shifting back right and
comparing"). -/
def CalculateASERT (refTarget : Nat) (nPowTargetSpacing : Int)
    (nTimeDiff : Int) (nHeightDiff : Int) (powLimit : Nat)
    (nHalfLife : Int) : Nat :=
  let exponent : Int :=
    Int.tdiv ((nTimeDiff - nPowTargetSpacing * nHeightDiff) * 65536) nHalfLife
  let shifts : Int := exponent / 65536
  let frac : Nat := (exponent % 65536).toNat
  let factor : Nat := asertFactor frac
  let nextTarget : Nat := (refTarget * factor) % U256
  let shifts : Int := shifts - 16
  let nextTarget : Nat :=
    if shifts ≤ 0 then nextTarget / 2 ^ (-shifts).toNat
    else
      let nextTargetShifted := (nextTarget * 2 ^ shifts.toNat) % U256
      if nextTargetShifted / 2 ^ shifts.toNat ≠ nextTarget then powLimit
      else nextTargetShifted
  if nextTarget = 0 then 1
  else if powLimit < nextTarget then powLimit
  else nextTarget

/-- One validated `CBlockIndex` record: height, block time, packed target,
and the lane flag (`GetPureHeader().IsAuxpow()`). -/
structure BlockNode where
  nHeight : Int
  nTime : Int
  nBits : Nat
  isAuxpow : Bool
  deriving DecidableEq

/-- A `CBlockIndex*`: the head of the list is the node itself, the tail is
its ancestor chain through `pprev`; `[]` is the null pointer. -/
abbrev Chain := List BlockNode

/-- Candidate `CBlockHeader` view: timestamp and lane flag. -/
structure CBlockHeader where
  nTime : Int
  isAuxpow : Bool

/-- The time difference handed to `CalculateASERT`
(`pow.cpp` line 52): reference node's block time minus the anchor
record's block time. -/
def asertTimeDiffArg (prev : BlockNode) (anchor : ASERTAnchor) : Int :=
  prev.nTime - anchor.nBlockTime

/-- The height-correction walk of `GetNextASERTWorkRequired`
(`pow.cpp` lines 57-62): walk back while the node exists and sits strictly
above the anchor height, decrementing the accumulator at every node whose
lane flag differs from the candidate's. -/
def asertHeightLoop (blockAux : Bool) (anchorHeight : Int) :
    Chain → Int → Int
  | [], acc => acc
  | b :: rest, acc =>
    if anchorHeight < b.nHeight then
      asertHeightLoop blockAux anchorHeight rest
        (if b.isAuxpow != blockAux then acc - 1 else acc)
    else acc

/-- The height difference handed to `CalculateASERT`
(`pow.cpp` lines 54-62): raw height difference to the anchor, corrected by
the walk. -/
def asertHeightDiffArg (b : BlockNode) (rest : Chain) (anchor : ASERTAnchor)
    (blockAux : Bool) : Int :=
  asertHeightLoop blockAux anchor.nHeight (b :: rest) (b.nHeight - anchor.nHeight)

/-- Preconditions asserted by `CalculateASERT` (`pow.cpp` lines 89-105);
in C++ a violation aborts, so the caller model returns `none` there. -/
def calculateASERTPre (refTarget : Nat) (nPowTargetSpacing : Int)
    (nTimeDiff : Int) (nHeightDiff : Int) (powLimit : Nat)
    (nHalfLife : Int) : Prop :=
  0 < refTarget ∧ refTarget ≤ powLimit ∧ powLimit / 2 ^ 224 = 0 ∧
    0 < nHeightDiff ∧ nHalfLife ≠ 0 ∧
    (nTimeDiff - nPowTargetSpacing * nHeightDiff).natAbs < 2 ^ 47

instance : ∀ r s t h l hl, Decidable (calculateASERTPre r s t h l hl) := by
  intro r s t h l hl
  unfold calculateASERTPre
  infer_instance

/-- Model of `GetNextASERTWorkRequired` (`pow.cpp` lines 23-77).  Returns `none`
when a C++ `assert` would fire (null parent, null parent-of-parent,
non-positive anchor height, parent not above the anchor) or when
`CalculateASERT`'s own asserts would; otherwise the compact encoding of
the computed target. -/
def GetNextASERTWorkRequired (pindexPrev : Chain) (pblock : CBlockHeader)
    (params : ConsensusParams) : Option Nat :=
  match pindexPrev with
  | [] => none
  | b :: rest =>
    let anchor := params.asertAnchorParams
    if 0 < anchor.nHeight ∧ anchor.nHeight < b.nHeight ∧ rest ≠ [] then
      let anchornBits :=
        if pblock.isAuxpow then anchor.nBitsAuxPow else anchor.nBitsLegacy
      let nPowTargetSpacing :=
        if pblock.isAuxpow then params.nPowTargetSpacingAuxPow
        else params.nPowTargetSpacingLegacy
      let refBlockTarget := setCompactValue anchornBits
      let nTimeDiff := asertTimeDiffArg b anchor
      let nHeightDiff := asertHeightDiffArg b rest anchor pblock.isAuxpow
      if calculateASERTPre refBlockTarget nPowTargetSpacing nTimeDiff
          nHeightDiff params.powLimit params.nASERTHalfLife then
        some (getCompact (CalculateASERT refBlockTarget nPowTargetSpacing
          nTimeDiff nHeightDiff params.powLimit params.nASERTHalfLife))
      else none
    else none

/-- The lane-matching walk of `GetNextWorkRequired`
(`pow.cpp` lines 191-212): step back while the node's lane flag differs
from the candidate's, short-circuiting to the anchor's lane-appropriate
legacy bits as soon as a node at or below the anchor height is reached;
on lane match, re-check the height and otherwise hand over to the ASERT
path.  `none` models the null-pointer dereference of a chain that ends
before reaching the anchor (and assert failures further in). -/
def getNextWorkLoop (pblock : CBlockHeader) (params : ConsensusParams) :
    Chain → Option Nat
  | [] => none
  | b :: rest =>
    let anchor := params.asertAnchorParams
    if b.isAuxpow != pblock.isAuxpow then
      if b.nHeight ≤ anchor.nHeight then
        some (if pblock.isAuxpow then anchor.nBitsAuxPow else anchor.nBitsLegacy)
      else getNextWorkLoop pblock params rest
    else
      if b.nHeight ≤ anchor.nHeight then
        some (if pblock.isAuxpow then anchor.nBitsAuxPow else anchor.nBitsLegacy)
      else GetNextASERTWorkRequired (b :: rest) pblock params

/-- Model of `GetNextWorkRequired` (`pow.cpp` lines 167-213): the retargeting
dispatcher.  `none` models an abort path. -/
def GetNextWorkRequired (pindexLast : Chain) (pblock : CBlockHeader)
    (params : ConsensusParams) : Option Nat :=
  match pindexLast with
  | [] => none
  | b :: rest =>
    if params.fPowNoRetargeting then some b.nBits
    else if ¬ 0 < params.asertAnchorParams.nHeight then none
    else if b.nHeight ≤ params.asertAnchorParams.nHeight then
      some params.asertAnchorParams.nBitsLegacy
    else if params.fPowAllowMinDifficultyBlocks ∧
        b.nTime + 2 * params.nPowTargetSpacingAuxPow < pblock.nTime then
      some (getCompact params.powLimit)
    else getNextWorkLoop pblock params (b :: rest)

/-- Model of `CalculateNextWorkRequired` (`pow.cpp` lines 215-238): the legacy
periodic retargeter.  `arith_uint256` multiplication by the (positive)
timespan and division by the configured timespan are modelled from the
spec as wide-integer operations wrapping at `2 ^ 256`. -/
def CalculateNextWorkRequired (pindexLast : BlockNode)
    (nFirstBlockTime : Int) (params : ConsensusParams) : Nat :=
  if params.fPowNoRetargeting then pindexLast.nBits
  else
    let nActualTimespan := pindexLast.nTime - nFirstBlockTime
    let nActualTimespan :=
      if nActualTimespan < Int.tdiv params.nPowTargetTimespan 4 then
        Int.tdiv params.nPowTargetTimespan 4
      else nActualTimespan
    let nActualTimespan :=
      if params.nPowTargetTimespan * 4 < nActualTimespan then
        params.nPowTargetTimespan * 4
      else nActualTimespan
    let bnNew := setCompactValue pindexLast.nBits
    let bnNew := bnNew * nActualTimespan.toNat % U256
    let bnNew := bnNew / params.nPowTargetTimespan.toNat
    let bnNew := if params.powLimit < bnNew then params.powLimit else bnNew
    getCompact bnNew

/-- The `largest_difficulty_target` computed by
`PermittedDifficultyTransition` (`pow.cpp` lines 255-262): old target
scaled by `largest_timespan / nPowTargetTimespan` and clamped to the
ceiling. -/
def largestDifficultyTarget (params : ConsensusParams) (old_nbits : Nat) : Nat :=
  let largest_timespan := params.nPowTargetTimespan * 4
  let x := setCompactValue old_nbits * largest_timespan.toNat % U256
  let x := x / params.nPowTargetTimespan.toNat
  if params.powLimit < x then params.powLimit else x

/-- The `smallest_difficulty_target` computed by
`PermittedDifficultyTransition` (`pow.cpp` lines 271-278): old target
scaled by `smallest_timespan / nPowTargetTimespan` and clamped to the
ceiling. -/
def smallestDifficultyTarget (params : ConsensusParams) (old_nbits : Nat) : Nat :=
  let smallest_timespan := Int.tdiv params.nPowTargetTimespan 4
  let x := setCompactValue old_nbits * smallest_timespan.toNat % U256
  let x := x / params.nPowTargetTimespan.toNat
  if params.powLimit < x then params.powLimit else x

/-- Model of `PermittedDifficultyTransition` (`pow.cpp` lines 242-289): the
transition validator. -/
def PermittedDifficultyTransition (params : ConsensusParams) (height : Int)
    (old_nbits new_nbits : Nat) : Bool :=
  if params.fPowAllowMinDifficultyBlocks then true
  else if Int.tmod height params.difficultyAdjustmentInterval = 0 then
    let observed_new_target := setCompactValue new_nbits
    let maximum_new_target :=
      setCompactValue (getCompact (largestDifficultyTarget params old_nbits))
    if maximum_new_target < observed_new_target then false
    else
      let minimum_new_target :=
        setCompactValue (getCompact (smallestDifficultyTarget params old_nbits))
      if observed_new_target < minimum_new_target then false else true
  else if old_nbits ≠ new_nbits then false
  else true

/-- The final clamp of `CalculateASERT` (`pow.cpp` lines 155-160):
zero becomes 1, anything above the ceiling becomes the ceiling. -/
def finalClamp (powLimit x : Nat) : Nat :=
  if x = 0 then 1 else if powLimit < x then powLimit else x

/-- Two-sided power-of-two shift of a natural number: multiply for a
nonnegative count, floored division for a negative one.  This is the
mathematical (wraparound-free) meaning of the shift step of
`CalculateASERT`. -/
def shiftTz (x : Nat) (k : Int) : Nat :=
  if 0 ≤ k then x * 2 ^ k.toNat else x / 2 ^ (-k).toNat

/-- The fixed-point exponent of `CalculateASERT` (`pow.cpp` line 106). -/
def asertExponent (nPowTargetSpacing nTimeDiff nHeightDiff nHalfLife : Int) : Int :=
  Int.tdiv ((nTimeDiff - nPowTargetSpacing * nHeightDiff) * 65536) nHalfLife

/-- Wraparound-free mathematical form of `CalculateASERT` as a function of
the fixed-point exponent: reference target times the fractional-part
factor, shifted by the integer part, then clamped. -/
def asertG (refTarget powLimit : Nat) (e : Int) : Nat :=
  finalClamp powLimit
    (shiftTz (refTarget * asertFactor ((e % 65536).toNat)) (e / 65536 - 16))

/-- A validated ancestor chain: each node's parent sits exactly one height
below it (the structural invariant the chain-storage collaborator
guarantees for validated history). -/
def consecutiveB : Chain → Bool
  | [] => true
  | [_] => true
  | a :: b :: rest => (b.nHeight == a.nHeight - 1) && consecutiveB (b :: rest)

/-- The Legacy Retargeter as the spec words it (spec section 4.3): actual
timespan clamped to `[timespan/4, timespan*4]`, parent target scaled by
multiply-then-divide in 256-bit arithmetic, clamped to the ceiling, then
packed; unchanged parent bits under no-retargeting. -/
def specLegacyRetarget (pindexLast : BlockNode) (nFirstBlockTime : Int)
    (params : ConsensusParams) : Nat :=
  if params.fPowNoRetargeting then pindexLast.nBits
  else
    let ideal := params.nPowTargetTimespan
    let actual := min (max (pindexLast.nTime - nFirstBlockTime) (Int.tdiv ideal 4))
      (ideal * 4)
    let scaled := setCompactValue pindexLast.nBits * actual.toNat % U256 /
      ideal.toNat
    getCompact (min scaled params.powLimit)

/-- Model of `CheckProofOfWork` (`pow.cpp` lines 291-308): the proof verifier. -/
def CheckProofOfWork (hash : Nat) (nBits : Nat)
    (params : ConsensusParams) : Bool :=
  let fNegative := setCompactNegative nBits
  let fOverflow := setCompactOverflow nBits
  let bnTarget := setCompactValue nBits
  if fNegative || bnTarget == 0 || fOverflow || decide (params.powLimit < bnTarget)
  then false
  else if bnTarget < hash then false
  else true

/-- The number of nodes of a chain segment that sit strictly above the
anchor height and carry the foreign lane flag (the spec's description of
the dispatcher's height-difference correction). -/
def foreignAbove (blockAux : Bool) (anchorHeight : Int) (l : Chain) : Nat :=
  (l.filter (fun n => decide (anchorHeight < n.nHeight) &&
    (n.isAuxpow != blockAux))).length

/-! ### Lemmas about the fixed-point factor -/

/-- The 64-bit polynomial sum never wraps: it is monotone in `frac` and its
value at the largest fractional part `65535` is below `2 ^ 64`. -/
theorem asertFactorSum_lt (frac : Nat) (h : frac ≤ 65535) :
    195766423245049 * frac + 971821376 * frac * frac
      + 5127 * frac * frac * frac + 2 ^ 47 < 2 ^ 64 := by
  have h1 : 195766423245049 * frac ≤ 195766423245049 * 65535 :=
    Nat.mul_le_mul_left _ h
  have h2 : 971821376 * frac * frac ≤ 971821376 * 65535 * 65535 :=
    Nat.mul_le_mul (Nat.mul_le_mul_left _ h) h
  have h3 : 5127 * frac * frac * frac ≤ 5127 * 65535 * 65535 * 65535 :=
    Nat.mul_le_mul (Nat.mul_le_mul (Nat.mul_le_mul_left _ h) h) h
  omega

theorem asertFactor_le (frac : Nat) : asertFactor frac ≤ 131071 := by
  unfold asertFactor
  have : (195766423245049 * frac + 971821376 * frac * frac
      + 5127 * frac * frac * frac + 2 ^ 47) % 2 ^ 64 < 2 ^ 64 :=
    Nat.mod_lt _ (by norm_num)
  omega

theorem asertFactor_ge (frac : Nat) : 65536 ≤ asertFactor frac := by
  unfold asertFactor
  omega

theorem asertFactor_mono {f g : Nat} (hfg : f ≤ g) (hg : g ≤ 65535) :
    asertFactor f ≤ asertFactor g := by
  unfold asertFactor
  rw [Nat.mod_eq_of_lt (asertFactorSum_lt f (le_trans hfg hg)),
    Nat.mod_eq_of_lt (asertFactorSum_lt g hg)]
  have h1 : 195766423245049 * f ≤ 195766423245049 * g :=
    Nat.mul_le_mul_left _ hfg
  have h2 : 971821376 * f * f ≤ 971821376 * g * g :=
    Nat.mul_le_mul (Nat.mul_le_mul_left _ hfg) hfg
  have h3 : 5127 * f * f * f ≤ 5127 * g * g * g :=
    Nat.mul_le_mul (Nat.mul_le_mul (Nat.mul_le_mul_left _ hfg) hfg) hfg
  have := Nat.div_le_div_right (c := 2 ^ 48)
    (Nat.add_le_add (Nat.add_le_add (Nat.add_le_add h1 h2) h3) (le_refl (2 ^ 47)))
  omega

theorem asertFactor_zero : asertFactor 0 = 65536 := by decide

/-! ### Lemmas about `shiftTz` and `finalClamp` -/

theorem shiftTz_mono {x y : Nat} (k : Int) (hxy : x ≤ y) :
    shiftTz x k ≤ shiftTz y k := by
  unfold shiftTz
  split
  · exact Nat.mul_le_mul_right _ hxy
  · exact Nat.div_le_div_right hxy

/-- Crossing an integer-shift boundary: a value at most twice another may
be shifted one position less. -/
theorem shiftTz_double {a b : Nat} (k : Int) (hab : a ≤ 2 * b) :
    shiftTz a k ≤ shiftTz b (k + 1) := by
  unfold shiftTz
  rcases le_or_lt 0 k with hk | hk
  · rw [if_pos hk, if_pos (by omega)]
    have ht : (k + 1).toNat = k.toNat + 1 := by omega
    rw [ht, pow_succ]
    calc a * 2 ^ k.toNat ≤ 2 * b * 2 ^ k.toNat := Nat.mul_le_mul_right _ hab
      _ = b * (2 ^ k.toNat * 2) := by ring
  · rw [if_neg (by omega)]
    rcases le_or_lt 0 (k + 1) with hk1 | hk1
    · -- k = -1
      have hkeq : k = -1 := by omega
      rw [if_pos hk1]
      subst hkeq
      simp only [show ((-1 : Int) + 1) = 0 by norm_num, Int.toNat_zero,
        pow_zero, Nat.mul_one, show (-(-1 : Int)).toNat = 1 by rfl, pow_one]
      omega
    · rw [if_neg (by omega)]
      have hm : (-k).toNat = (-(k + 1)).toNat + 1 := by omega
      rw [hm, pow_succ, Nat.mul_comm (2 ^ (-(k + 1)).toNat) 2,
        ← Nat.div_div_eq_div_mul]
      exact Nat.div_le_div_right (by omega)

theorem finalClamp_mono {L a b : Nat} (hL : 0 < L) (hab : a ≤ b) :
    finalClamp L a ≤ finalClamp L b := by
  unfold finalClamp
  repeat' split
  all_goals omega

theorem finalClamp_pos {L x : Nat} (hL : 0 < L) : 0 < finalClamp L x := by
  unfold finalClamp
  split <;> [omega; (split <;> omega)]

theorem finalClamp_le {L x : Nat} (hL : 0 < L) : finalClamp L x ≤ L := by
  unfold finalClamp
  split <;> [omega; (split <;> omega)]

theorem shiftTz_nonpos {x : Nat} {k : Int} (hk : k ≤ 0) :
    shiftTz x k = x / 2 ^ (-k).toNat := by
  unfold shiftTz
  rcases eq_or_lt_of_le hk with hke | hkl
  · subst hke
    simp
  · rw [if_neg (by omega)]

theorem shiftTz_of_nonneg {x : Nat} {k : Int} (hk : 0 ≤ k) :
    shiftTz x k = x * 2 ^ k.toNat := by
  unfold shiftTz
  rw [if_pos hk]

/-- The function `CalculateASERT` computes exactly the wraparound-free `asertG` of its
fixed-point exponent: the intermediate 256-bit products never wrap, and
the explicit overflow detection on the left shift coincides with the
mathematical clamp. -/
theorem calculateASERT_eq_asertG (R : Nat) (sp t h hl : Int) (L : Nat)
    (hR : 0 < R) (hRL : R ≤ L) (hL : L < 2 ^ 224) :
    CalculateASERT R sp t h L hl = asertG R L (asertExponent sp t h hl) := by
  have hLpos : 0 < L := lt_of_lt_of_le hR hRL
  set e : Int := asertExponent sp t h hl with he
  set f : Nat := ((e % 65536).toNat) with hf
  set x : Nat := R * asertFactor f with hx
  have hxlt : x < 2 ^ 256 := by
    have h1 : x ≤ (2 ^ 224 - 1) * 131071 :=
      Nat.mul_le_mul (by omega) (asertFactor_le f)
    have h2 : (2 ^ 224 - 1) * 131071 < 2 ^ 256 := by norm_num
    omega
  have hxpos : 0 < x := Nat.mul_pos hR (by have := asertFactor_ge f; omega)
  set k : Int := e / 65536 - 16 with hk
  have hmod : R * asertFactor f % U256 = x := Nat.mod_eq_of_lt (by
    simpa [U256] using hxlt)
  have hstep : CalculateASERT R sp t h L hl =
      finalClamp L (if k ≤ 0 then (R * asertFactor f % U256) / 2 ^ (-k).toNat
        else if (R * asertFactor f % U256) * 2 ^ k.toNat % U256 / 2 ^ k.toNat
            ≠ R * asertFactor f % U256 then L
        else (R * asertFactor f % U256) * 2 ^ k.toNat % U256) := by
    rfl
  rw [hstep, hmod]
  unfold asertG
  rw [← hf, ← hx, ← hk]
  rcases le_or_lt k 0 with hk0 | hk0
  · rw [if_pos hk0, shiftTz_nonpos hk0]
  · rw [if_neg (by omega), shiftTz_of_nonneg (le_of_lt hk0)]
    have hp : (0 : Nat) < 2 ^ k.toNat := Nat.pos_pow_of_pos _ (by norm_num)
    rcases lt_or_le (x * 2 ^ k.toNat) U256 with hov | hov
    · rw [Nat.mod_eq_of_lt hov, if_neg (by
        simp only [ne_eq, not_not]
        exact Nat.mul_div_cancel x hp)]
    · rw [if_pos (by
        intro heq
        have hsm : x * 2 ^ k.toNat % U256 < U256 := Nat.mod_lt _ (by norm_num [U256])
        have : x ≤ x * 2 ^ k.toNat % U256 / 2 ^ k.toNat := le_of_eq heq.symm
        rw [Nat.le_div_iff_mul_le hp] at this
        omega)]
      have hbig : L < x * 2 ^ k.toNat := by
        have : (2 : Nat) ^ 224 ≤ 2 ^ 256 := by norm_num
        have := hov
        simp only [U256] at this
        omega
      unfold finalClamp
      rw [if_neg (by omega), if_neg (by omega), if_pos hbig,
        if_neg (by intro h0; omega)]

/-- C++ truncating division by a positive divisor is monotone in the
dividend. -/
theorem tdiv_le_tdiv_right {a b c : Int} (hc : 0 < c) (h : a ≤ b) :
    Int.tdiv a c ≤ Int.tdiv b c := by
  rcases le_or_lt 0 a with ha | ha
  · rw [Int.tdiv_eq_ediv ha (le_of_lt hc),
      Int.tdiv_eq_ediv (le_trans ha h) (le_of_lt hc)]
    exact Int.ediv_le_ediv hc h
  · rcases le_or_lt 0 b with hb | hb
    · have h1 : Int.tdiv a c ≤ 0 := by
        have h2 : (0 : Int) ≤ Int.tdiv (-a) c :=
          Int.tdiv_nonneg (by omega) (le_of_lt hc)
        rw [Int.neg_tdiv] at h2
        omega
      have h2 : (0 : Int) ≤ Int.tdiv b c := Int.tdiv_nonneg hb (le_of_lt hc)
      omega
    · have ha' : Int.tdiv a c = -((-a) / c) := by
        rw [← Int.tdiv_eq_ediv (by omega) (le_of_lt hc), Int.neg_tdiv]
        omega
      have hb' : Int.tdiv b c = -((-b) / c) := by
        rw [← Int.tdiv_eq_ediv (by omega) (le_of_lt hc), Int.neg_tdiv]
        omega
      rw [ha', hb']
      have := Int.ediv_le_ediv hc (show -b ≤ -a by omega)
      omega

/-- One step of monotonicity of the wraparound-free ASERT value in the
fixed-point exponent: incrementing the exponent by one (either within a
fractional period or across an integer-shift boundary, where the factor at
the largest fractional part is below twice the factor at zero) cannot
decrease the result. -/
theorem asertG_succ (R L : Nat) (e : Int) (hR : 0 < R) (hRL : R ≤ L) :
    asertG R L e ≤ asertG R L (e + 1) := by
  have hLpos : 0 < L := lt_of_lt_of_le hR hRL
  unfold asertG
  rcases lt_or_ge (e % 65536) 65535 with hf | hf
  · have hd : (e + 1) / 65536 = e / 65536 := by omega
    have hm : ((e + 1) % 65536).toNat = (e % 65536).toNat + 1 := by omega
    rw [hd, hm]
    refine finalClamp_mono hLpos (shiftTz_mono _ (Nat.mul_le_mul_left R ?_))
    exact asertFactor_mono (Nat.le_succ _) (by omega)
  · have hf65 : e % 65536 = 65535 := by omega
    have hd : (e + 1) / 65536 = e / 65536 + 1 := by omega
    have hm : ((e + 1) % 65536).toNat = 0 := by omega
    rw [hd, hm, hf65]
    show finalClamp L (shiftTz (R * asertFactor (Int.toNat 65535)) (e / 65536 - 16)) ≤
      finalClamp L (shiftTz (R * asertFactor 0) (e / 65536 + 1 - 16))
    have hab : R * asertFactor (Int.toNat 65535) ≤ 2 * (R * asertFactor 0) := by
      have h1 : asertFactor (Int.toNat 65535) = 131071 := by decide
      rw [h1, asertFactor_zero]
      calc R * 131071 ≤ R * 131072 := Nat.mul_le_mul_left R (by norm_num)
        _ = 2 * (R * 65536) := by ring
    refine finalClamp_mono hLpos ?_
    have := shiftTz_double (a := R * asertFactor (Int.toNat 65535))
      (b := R * asertFactor 0) (e / 65536 - 16) hab
    have harg : e / 65536 - 16 + 1 = e / 65536 + 1 - 16 := by ring
    rwa [harg] at this

/-- The wraparound-free ASERT value is monotone in the fixed-point
exponent. -/
theorem asertG_mono (R L : Nat) {e e' : Int} (hR : 0 < R) (hRL : R ≤ L)
    (hee : e ≤ e') : asertG R L e ≤ asertG R L e' := by
  obtain ⟨n, hn⟩ : ∃ n : Nat, e' = e + n := ⟨(e' - e).toNat, by omega⟩
  subst hn
  induction n with
  | zero => simp
  | succ m ih =>
      have h1 : asertG R L e ≤ asertG R L (e + m) := ih (by omega)
      have h2 : asertG R L (e + m) ≤ asertG R L (e + m + 1) :=
        asertG_succ R L (e + m) hR hRL
      have harg : e + ((m : Int) + 1) = e + m + 1 := by ring
      calc asertG R L e ≤ asertG R L (e + m + 1) := le_trans h1 h2
        _ = asertG R L (e + ((m + 1 : Nat) : Int)) := by
            rw [show ((m + 1 : Nat) : Int) = (m : Int) + 1 by push_cast; ring, harg]

/-! ### Claims C2, C3, C4 -/

/-- C2, counterexample: with only the preconditions the claim lists
(reference target in `(0, ceiling]`, ceiling with 32 leading zero bits,
height diff strictly positive, half-life positive), the output is NOT
monotonically non-increasing in `nHeightDiff`: a negative ideal spacing
(not excluded by those preconditions) makes the exponent grow with the
height diff, so the target strictly increases from height diff 1 to 2. -/
theorem claim_C2_counterexample :
    0 < (1 : Nat) ∧ (1 : Nat) ≤ 2 ^ 220 ∧ ((2 : Nat) ^ 220) / 2 ^ 224 = 0 ∧
    (0 : Int) < 1 ∧ (0 : Int) < 2 ∧ (0 : Int) < 1 ∧ (1 : Int) ≤ 2 ∧
    CalculateASERT 1 (-32) 0 1 (2 ^ 220) 1 <
      CalculateASERT 1 (-32) 0 2 (2 ^ 220) 1 := by
  refine ⟨by norm_num, by norm_num, Nat.div_eq_of_lt (by norm_num), by norm_num,
    by norm_num, by norm_num, by norm_num, ?_⟩
  have h1 : CalculateASERT 1 (-32) 0 1 (2 ^ 220) 1 = 2 ^ 32 := by decide
  have h2 : CalculateASERT 1 (-32) 0 2 (2 ^ 220) 1 = 2 ^ 64 := by decide
  rw [h1, h2]
  norm_num

/-- C2 (amended): with the claim's preconditions AND a positive ideal
spacing (the ConsensusParams invariant the spec states for all spacings),
`CalculateASERT` is monotone non-decreasing in the time diff at fixed
height diff, and monotone non-increasing in the height diff at fixed time
diff. -/
theorem calculateASERT_monotone (R L : Nat) (sp t t' h h' hl : Int)
    (hR : 0 < R) (hRL : R ≤ L) (hL : L < 2 ^ 224)
    (hh : 0 < h) (hh' : 0 < h') (hhl : 0 < hl) (hsp : 0 < sp) :
    (t ≤ t' → CalculateASERT R sp t h L hl ≤ CalculateASERT R sp t' h L hl) ∧
    (h ≤ h' → CalculateASERT R sp t h' L hl ≤ CalculateASERT R sp t h L hl) := by
  constructor
  · intro htt
    rw [calculateASERT_eq_asertG R sp t h hl L hR hRL hL,
      calculateASERT_eq_asertG R sp t' h hl L hR hRL hL]
    refine asertG_mono R L hR hRL ?_
    unfold asertExponent
    refine tdiv_le_tdiv_right hhl ?_
    have hnum : t - sp * h ≤ t' - sp * h := by omega
    exact mul_le_mul_of_nonneg_right hnum (by norm_num)
  · intro hhh
    rw [calculateASERT_eq_asertG R sp t h hl L hR hRL hL,
      calculateASERT_eq_asertG R sp t h' hl L hR hRL hL]
    refine asertG_mono R L hR hRL ?_
    unfold asertExponent
    refine tdiv_le_tdiv_right hhl ?_
    have hsph : sp * h ≤ sp * h' := mul_le_mul_of_nonneg_left hhh (le_of_lt hsp)
    have hnum : t - sp * h' ≤ t - sp * h := by omega
    exact mul_le_mul_of_nonneg_right hnum (by norm_num)

/-- Witness for the amended C2 at concrete inputs. -/
theorem calculateASERT_monotone_witness :
    CalculateASERT 1 600 0 1 (2 ^ 220) 172800 ≤
      CalculateASERT 1 600 600 1 (2 ^ 220) 172800 ∧
    CalculateASERT 1 600 0 2 (2 ^ 220) 172800 ≤
      CalculateASERT 1 600 0 1 (2 ^ 220) 172800 :=
  ⟨(calculateASERT_monotone 1 (2 ^ 220) 600 0 600 1 2 172800 (by norm_num)
      (by norm_num) (by norm_num) (by norm_num) (by norm_num) (by norm_num)
      (by norm_num)).1 (by norm_num),
   (calculateASERT_monotone 1 (2 ^ 220) 600 0 600 1 2 172800 (by norm_num)
      (by norm_num) (by norm_num) (by norm_num) (by norm_num) (by norm_num)
      (by norm_num)).2 (by norm_num)⟩

/-- C3: under the preconditions, the output of `CalculateASERT` lies in
`(0, ceiling]`, and it equals the wraparound-free `asertG` value (clamping
`0` to `1` and oversized values to the ceiling, never wrapping). -/
theorem calculateASERT_range (R L : Nat) (sp t h hl : Int)
    (hR : 0 < R) (hRL : R ≤ L) (hL : L < 2 ^ 224) (hh : 0 < h)
    (hhl : 0 < hl) :
    0 < CalculateASERT R sp t h L hl ∧ CalculateASERT R sp t h L hl ≤ L ∧
    CalculateASERT R sp t h L hl = asertG R L (asertExponent sp t h hl) := by
  have heq := calculateASERT_eq_asertG R sp t h hl L hR hRL hL
  have hLpos : 0 < L := lt_of_lt_of_le hR hRL
  refine ⟨?_, ?_, heq⟩ <;> rw [heq] <;> unfold asertG
  · exact finalClamp_pos hLpos
  · exact finalClamp_le hLpos

/-- Witness for C3 at concrete inputs. -/
theorem calculateASERT_range_witness :
    0 < CalculateASERT 1000000 600 30000 50 (2 ^ 220) 172800 ∧
    CalculateASERT 1000000 600 30000 50 (2 ^ 220) 172800 ≤ 2 ^ 220 ∧
    CalculateASERT 1000000 600 30000 50 (2 ^ 220) 172800 =
      asertG 1000000 (2 ^ 220) (asertExponent 600 30000 50 172800) :=
  calculateASERT_range 1000000 (2 ^ 220) 600 30000 50 172800 (by norm_num)
    (by norm_num) (by norm_num) (by norm_num) (by norm_num)

/-- C4: when the chain is exactly on schedule (time diff equals ideal
spacing times height diff), `CalculateASERT` returns the reference target
exactly — in particular within the 0.013% polynomial approximation error
the claim allows. -/
theorem calculateASERT_on_schedule (R L : Nat) (sp h hl : Int)
    (hR : 0 < R) (hRL : R ≤ L) (hL : L < 2 ^ 224) (hh : 0 < h)
    (hhl : 0 < hl) :
    CalculateASERT R sp (sp * h) h L hl = R := by
  rw [calculateASERT_eq_asertG R sp (sp * h) h hl L hR hRL hL]
  have he : asertExponent sp (sp * h) h hl = 0 := by
    unfold asertExponent
    rw [show (sp * h - sp * h) * 65536 = 0 by ring]
    exact Int.zero_tdiv hl
  rw [he]
  unfold asertG
  rw [show ((0 : Int) % 65536).toNat = 0 by decide, asertFactor_zero,
    shiftTz_nonpos (by norm_num), show (-((0 : Int) / 65536 - 16)).toNat = 16 by decide, show (2 : Nat) ^ 16 = 65536 by norm_num,
    Nat.mul_div_cancel R (by norm_num)]
  unfold finalClamp
  rw [if_neg (by omega), if_neg (by omega)]

/-- Witness for C4 at concrete inputs. -/
theorem calculateASERT_on_schedule_witness :
    CalculateASERT 1000000 600 (600 * 50) 50 (2 ^ 220) 172800 = 1000000 :=
  calculateASERT_on_schedule 1000000 (2 ^ 220) 600 50 172800 (by norm_num)
    (by norm_num) (by norm_num) (by norm_num) (by norm_num)

/-! ### Chain-walk lemmas and claims C1, C5, C10 -/

theorem consecutiveB_tail {a : BlockNode} {l : Chain}
    (h : consecutiveB (a :: l) = true) : consecutiveB l = true := by
  cases l with
  | nil => rfl
  | cons b r =>
      unfold consecutiveB at h
      exact (Bool.and_eq_true _ _ |>.mp h).2

theorem consecutive_lt : ∀ (l : Chain) (a : BlockNode),
    consecutiveB (a :: l) = true → ∀ n ∈ l, n.nHeight < a.nHeight := by
  intro l
  induction l with
  | nil =>
      intro a _ n hn
      cases hn
  | cons c r ih =>
      intro a hc n hn
      unfold consecutiveB at hc
      obtain ⟨h1, h2⟩ := (Bool.and_eq_true _ _).mp hc
      have hca : c.nHeight = a.nHeight - 1 := by simpa using h1
      rcases List.mem_cons.mp hn with hn | hn
      · subst hn
        omega
      · have := ih c h2 n hn
        omega

/-- The height-correction walk subtracts exactly the number of
foreign-lane nodes strictly above the anchor height. -/
theorem asertHeightLoop_eq (blockAux : Bool) (aH : Int) :
    ∀ (l : Chain) (acc : Int), consecutiveB l = true →
    asertHeightLoop blockAux aH l acc = acc - foreignAbove blockAux aH l := by
  intro l
  induction l with
  | nil =>
      intro acc _
      simp [asertHeightLoop, foreignAbove]
  | cons b rest ih =>
      intro acc hc
      unfold asertHeightLoop foreignAbove
      rcases lt_or_ge aH b.nHeight with hlt | hge
      · rw [if_pos hlt, ih _ (consecutiveB_tail hc)]
        unfold foreignAbove
        simp only [List.filter_cons, decide_eq_true hlt, Bool.true_and]
        by_cases hb : (b.isAuxpow != blockAux) = true
        · rw [if_pos hb, if_pos hb, List.length_cons]
          push_cast
          omega
        · rw [if_neg hb, if_neg hb]
      · rw [if_neg (by omega)]
        have hnil : (b :: rest).filter (fun n => decide (aH < n.nHeight) &&
            (n.isAuxpow != blockAux)) = [] := by
          rw [List.filter_eq_nil_iff]
          intro n hn
          rcases List.mem_cons.mp hn with hn | hn
          · subst hn
            simp only [Bool.and_eq_true, decide_eq_true_eq]
            intro hcon
            omega
          · have := consecutive_lt rest b hc n hn
            simp only [Bool.and_eq_true, decide_eq_true_eq]
            intro hcon
            omega
        rw [hnil]
        simp

/-- C5: on a validated chain (consecutive heights), the height difference
the dispatcher passes to `CalculateASERT` equals the raw height difference
from the reference node to the anchor minus the number of foreign-lane
nodes strictly above the anchor height (the reference node included in the
scan), and the time difference passed is the reference node's block time
minus the anchor record's block time. -/
theorem asertArgs_spec (b : BlockNode) (rest : Chain) (anchor : ASERTAnchor)
    (blockAux : Bool) (hc : consecutiveB (b :: rest) = true) :
    asertHeightDiffArg b rest anchor blockAux =
      (b.nHeight - anchor.nHeight) -
        foreignAbove blockAux anchor.nHeight (b :: rest) ∧
    asertTimeDiffArg b anchor = b.nTime - anchor.nBlockTime :=
  ⟨asertHeightLoop_eq blockAux anchor.nHeight (b :: rest) _ hc, rfl⟩

/-- Witness for C5 on a concrete interleaved chain. -/
theorem asertArgs_spec_witness :
    asertHeightDiffArg ⟨9, 77, 0, false⟩
      [⟨8, 60, 0, true⟩, ⟨7, 50, 0, false⟩, ⟨6, 40, 0, true⟩, ⟨5, 30, 0, false⟩]
      ⟨5, 1000, 4369, 8738⟩ false = (9 - 5) - 2 ∧
    asertTimeDiffArg ⟨9, 77, 0, false⟩ ⟨5, 1000, 4369, 8738⟩ = 77 - 1000 := by
  have h := asertArgs_spec ⟨9, 77, 0, false⟩
    [⟨8, 60, 0, true⟩, ⟨7, 50, 0, false⟩, ⟨6, 40, 0, true⟩, ⟨5, 30, 0, false⟩]
    ⟨5, 1000, 4369, 8738⟩ false (by decide)
  refine ⟨?_, h.2⟩
  rw [h.1]
  decide

/-- On a chain of consecutive heights, the tail of a node holds at most
`height - 1 - anchorHeight` nodes strictly above the anchor height, no
matter the lane predicate. -/
theorem foreignAbove_tail_le (blockAux : Bool) (aH : Int) :
    ∀ (l : Chain) (a : BlockNode), consecutiveB (a :: l) = true →
    (foreignAbove blockAux aH l : Int) ≤ max (a.nHeight - 1 - aH) 0 := by
  intro l
  induction l with
  | nil =>
      intro a _
      simp [foreignAbove]
  | cons c r ih =>
      intro a hc
      unfold consecutiveB at hc
      obtain ⟨h1, h2⟩ := (Bool.and_eq_true _ _).mp hc
      have hca : c.nHeight = a.nHeight - 1 := by simpa using h1
      have hr := ih c h2
      unfold foreignAbove at hr ⊢
      simp only [List.filter_cons]
      by_cases hp : (decide (aH < c.nHeight) && (c.isAuxpow != blockAux)) = true
      · have hclt : aH < c.nHeight :=
          of_decide_eq_true ((Bool.and_eq_true _ _).mp hp).1
        rw [if_pos hp, List.length_cons]
        push_cast
        omega
      · rw [if_neg hp]
        omega

/-- C10: on a validated chain, when the dispatcher reaches the ASERT path
(lane-matched reference node strictly above the anchor height), the
corrected height difference it passes is at least 1, so the
strictly-positive height-diff assertion of `CalculateASERT` cannot fail on
this internal call. -/
theorem asertHeightDiffArg_pos (b : BlockNode) (rest : Chain)
    (anchor : ASERTAnchor) (blockAux : Bool)
    (hc : consecutiveB (b :: rest) = true)
    (hb : anchor.nHeight < b.nHeight)
    (hlane : b.isAuxpow = blockAux) :
    1 ≤ asertHeightDiffArg b rest anchor blockAux := by
  unfold asertHeightDiffArg
  rw [asertHeightLoop_eq blockAux anchor.nHeight (b :: rest) _ hc]
  have hhead : foreignAbove blockAux anchor.nHeight (b :: rest) =
      foreignAbove blockAux anchor.nHeight rest := by
    unfold foreignAbove
    simp [List.filter_cons, hlane]
  have h2 := foreignAbove_tail_le blockAux anchor.nHeight rest b hc
  rw [hhead]
  omega

/-- Witness for C10 on a concrete chain. -/
theorem asertHeightDiffArg_pos_witness :
    1 ≤ asertHeightDiffArg ⟨6, 77, 0, true⟩ [⟨5, 60, 0, false⟩]
      ⟨5, 1000, 4369, 8738⟩ true :=
  asertHeightDiffArg_pos ⟨6, 77, 0, true⟩ [⟨5, 60, 0, false⟩]
    ⟨5, 1000, 4369, 8738⟩ true (by decide) (by norm_num) rfl

/-- C1, counterexample: candidate on the auxiliary lane, parent at height
3 at or below the anchor height 5 — the dispatcher returns the anchor's
legacy bits 4369 through the height fast-path, not the lane-appropriate
auxiliary bits 8738, so the claim as stated fails. -/
theorem claim_C1_counterexample :
    GetNextWorkRequired [⟨3, 900, 7, false⟩] ⟨2000, true⟩
      ⟨2 ^ 220, 600, 1200, 4, 2016, 172800, false, false, ⟨5, 1000, 4369, 8738⟩⟩
      = some 4369 ∧ (4369 : Nat) ≠ 8738 := by
  constructor
  · decide
  · decide

/-- C1 (amended): when the parent's height is at or before the anchor
height (retargeting enabled, anchor height positive), the dispatcher's
height fast-path returns the anchor's LEGACY packed target regardless of
the candidate header's lane flag; the lane-appropriate legacy selection
happens only on the lane-matching walk's pre-anchor checks. -/
theorem getNextWorkRequired_preAnchor (b : BlockNode) (rest : Chain)
    (pblock : CBlockHeader) (params : ConsensusParams)
    (hnr : params.fPowNoRetargeting = false)
    (ha : 0 < params.asertAnchorParams.nHeight)
    (hb : b.nHeight ≤ params.asertAnchorParams.nHeight) :
    GetNextWorkRequired (b :: rest) pblock params =
      some params.asertAnchorParams.nBitsLegacy := by
  unfold GetNextWorkRequired
  rw [hnr]
  simp only [Bool.false_eq_true, if_false]
  rw [if_neg (by omega), if_pos hb]

/-- Witness for the amended C1, on the auxiliary lane. -/
theorem getNextWorkRequired_preAnchor_witness :
    GetNextWorkRequired [⟨4, 900, 7, true⟩] ⟨2000, true⟩
      ⟨2 ^ 220, 600, 1200, 4, 2016, 172800, false, false, ⟨5, 1000, 4369, 8738⟩⟩
      = some 4369 :=
  getNextWorkRequired_preAnchor ⟨4, 900, 7, true⟩ [] ⟨2000, true⟩
    ⟨2 ^ 220, 600, 1200, 4, 2016, 172800, false, false, ⟨5, 1000, 4369, 8738⟩⟩
    rfl (by norm_num) (by norm_num)

/-! ### Claims C7 and C9 -/

/-- C7: off retarget-interval boundaries (minimum-difficulty exemption
off), a transition is permitted exactly when the new packed target is
bit-for-bit equal to the old one. -/
theorem permitted_nonBoundary (params : ConsensusParams) (height : Int)
    (old_nbits new_nbits : Nat)
    (hm : params.fPowAllowMinDifficultyBlocks = false)
    (hb : Int.tmod height params.difficultyAdjustmentInterval ≠ 0) :
    (PermittedDifficultyTransition params height old_nbits new_nbits = true ↔
      old_nbits = new_nbits) := by
  unfold PermittedDifficultyTransition
  rw [hm]
  simp only [Bool.false_eq_true, if_false]
  rw [if_neg hb]
  by_cases h : old_nbits = new_nbits
  · simp [h]
  · simp [h]

/-- Witness for C7. -/
theorem permitted_nonBoundary_witness :
    (PermittedDifficultyTransition
      ⟨100, 600, 1200, 4, 2016, 172800, false, false, ⟨5, 1000, 4369, 8738⟩⟩
      2017 50331648 50331648 = true ↔ (50331648 : Nat) = 50331648) :=
  permitted_nonBoundary
    ⟨100, 600, 1200, 4, 2016, 172800, false, false, ⟨5, 1000, 4369, 8738⟩⟩
    2017 50331648 50331648 rfl (by decide)

/-- C9: the proof verifier accepts exactly when the packed target decodes
without the negative or overflow flag to a nonzero value within the
ceiling, and the hash (as a 256-bit magnitude) is at most that value. -/
theorem checkProofOfWork_spec (hash nBits : Nat) (params : ConsensusParams) :
    CheckProofOfWork hash nBits params = true ↔
      (setCompactNegative nBits = false ∧ setCompactOverflow nBits = false ∧
       setCompactValue nBits ≠ 0 ∧ setCompactValue nBits ≤ params.powLimit ∧
       hash ≤ setCompactValue nBits) := by
  unfold CheckProofOfWork
  by_cases h1 : setCompactNegative nBits = true <;>
    by_cases h2 : setCompactOverflow nBits = true <;>
    by_cases h3 : setCompactValue nBits = 0 <;>
    by_cases h4 : params.powLimit < setCompactValue nBits <;>
    by_cases h5 : setCompactValue nBits < hash <;>
    simp_all

/-! ### Claim C8 -/

/-- C8: with a positive configured timespan, `CalculateNextWorkRequired`
computes exactly the spec's description of the Legacy Retargeter: actual
timespan clamped to `[timespan/4, timespan*4]`, parent target scaled by
multiply-then-divide, clamped to the ceiling and packed; and with
no-retargeting on it returns the parent's packed target unchanged. -/
theorem calculateNextWorkRequired_spec (pindexLast : BlockNode)
    (nFirstBlockTime : Int) (params : ConsensusParams)
    (ht : 0 < params.nPowTargetTimespan) :
    CalculateNextWorkRequired pindexLast nFirstBlockTime params =
      specLegacyRetarget pindexLast nFirstBlockTime params := by
  unfold CalculateNextWorkRequired specLegacyRetarget
  by_cases hnr : params.fPowNoRetargeting = true
  · rw [if_pos hnr, if_pos hnr]
  · rw [if_neg hnr, if_neg hnr]
    dsimp only []
    have hspan : (if params.nPowTargetTimespan * 4 <
        (if pindexLast.nTime - nFirstBlockTime <
            Int.tdiv params.nPowTargetTimespan 4 then
          Int.tdiv params.nPowTargetTimespan 4
        else pindexLast.nTime - nFirstBlockTime) then
          params.nPowTargetTimespan * 4
        else
          (if pindexLast.nTime - nFirstBlockTime <
              Int.tdiv params.nPowTargetTimespan 4 then
            Int.tdiv params.nPowTargetTimespan 4
          else pindexLast.nTime - nFirstBlockTime)) =
        min (max (pindexLast.nTime - nFirstBlockTime)
          (Int.tdiv params.nPowTargetTimespan 4))
          (params.nPowTargetTimespan * 4) := by
      split_ifs <;> omega
    rw [hspan]
    have hmin : ∀ x L : Nat, (if L < x then L else x) = min x L := by
      intro x L
      split_ifs <;> omega
    rw [hmin]

/-- Witness for C8 at concrete inputs. -/
theorem calculateNextWorkRequired_spec_witness :
    CalculateNextWorkRequired ⟨100, 2000, 50335744, false⟩ 1000
      ⟨2 ^ 220, 600, 1200, 500, 2016, 172800, false, false, ⟨5, 1000, 4369, 8738⟩⟩
      = specLegacyRetarget ⟨100, 2000, 50335744, false⟩ 1000
      ⟨2 ^ 220, 600, 1200, 500, 2016, 172800, false, false, ⟨5, 1000, 4369, 8738⟩⟩ :=
  calculateNextWorkRequired_spec ⟨100, 2000, 50335744, false⟩ 1000
    ⟨2 ^ 220, 600, 1200, 500, 2016, 172800, false, false, ⟨5, 1000, 4369, 8738⟩⟩
    (by norm_num)

/-! ### Compact round-trip lemmas (for claim C6) -/

theorem sizeFuel_lt : ∀ (fuel x : Nat), x < 2 ^ fuel → x < 2 ^ sizeFuel fuel x := by
  intro fuel
  induction fuel with
  | zero =>
      intro x hx
      simpa [sizeFuel] using hx
  | succ f ih =>
      intro x hx
      unfold sizeFuel
      by_cases hx0 : x = 0
      · simp [hx0]
      · rw [if_neg hx0]
        have hhalf : x / 2 < 2 ^ f := by
          rw [pow_succ] at hx
          omega
        have := ih (x / 2) hhalf
        rw [pow_succ]
        omega

theorem sizeFuel_le : ∀ (fuel x : Nat), x ≠ 0 →
    2 ^ (sizeFuel fuel x - 1) ≤ x := by
  intro fuel
  induction fuel with
  | zero =>
      intro x hx
      simp only [sizeFuel, Nat.zero_sub, pow_zero]
      omega
  | succ f ih =>
      intro x hx
      unfold sizeFuel
      rw [if_neg hx]
      by_cases hh : x / 2 = 0
      · have hsz : sizeFuel f (x / 2) = 0 := by
          cases f <;> simp [sizeFuel, hh]
        rw [hsz]
        simpa using Nat.pos_of_ne_zero hx
      · have := ih (x / 2) hh
        rcases Nat.eq_zero_or_pos (sizeFuel f (x / 2)) with hz | hpos
        · rw [hz]
          simpa using Nat.pos_of_ne_zero hx
        · have hstep : 2 ^ (sizeFuel f (x / 2)) ≤ 2 * (x / 2) := by
            have h2 : (2 : Nat) ^ sizeFuel f (x / 2) =
                2 * 2 ^ (sizeFuel f (x / 2) - 1) := by
              rw [← pow_succ']
              congr 1
              omega
            omega
          have hx2 : 2 * (x / 2) ≤ x := by omega
          calc 2 ^ (sizeFuel f (x / 2) + 1 - 1) = 2 ^ sizeFuel f (x / 2) := rfl
            _ ≤ 2 * (x / 2) := hstep
            _ ≤ x := hx2

/-- Decoding a well-formed packed value (mantissa below the sign bit,
exponent in the top byte). -/
theorem setCompactValue_pack (c n : Nat) (hc : c < 2 ^ 23) :
    setCompactValue (c + n * 2 ^ 24) =
      if n ≤ 3 then c / 2 ^ (8 * (3 - n)) else c * 2 ^ (8 * (n - 3)) % U256 := by
  unfold setCompactValue
  dsimp only []
  have h1 : (c + n * 2 ^ 24) / 2 ^ 24 = n := by omega
  have h2 : (c + n * 2 ^ 24) % 2 ^ 23 = c := by omega
  rw [h1, h2]

/-- Structure of the compact round-trip: it truncates the value to a
multiple of some power of two `2 ^ j`, and whenever any truncation happens
(`j ≠ 0`) the value has at least `j + 15` bits. -/
theorem rt_structure (x : Nat) (hx : x < 2 ^ 256) :
    ∃ j : Nat, setCompactValue (getCompact x) = x / 2 ^ j * 2 ^ j ∧
      (j = 0 ∨ 2 ^ (j + 15) ≤ x) := by
  by_cases hx0 : x = 0
  · subst hx0
    exact ⟨0, by decide, Or.inl rfl⟩
  have hs1 : 2 ^ (nbits x - 1) ≤ x := sizeFuel_le 256 x hx0
  have hslt : x < 2 ^ nbits x := sizeFuel_lt 256 x hx
  set s := nbits x with hs
  set n := (s + 7) / 8 with hn
  have hxn : x < 2 ^ (8 * n) :=
    lt_of_lt_of_le hslt (Nat.pow_le_pow_right (by norm_num) (by omega))
  by_cases hn3 : n ≤ 3
  · -- small values: at most three significant bytes
    have hgc : getCompact x =
        (if 2 ^ 23 ≤ x * 2 ^ (8 * (3 - n))
         then x * 2 ^ (8 * (3 - n)) / 2 ^ 8 + (n + 1) * 2 ^ 24
         else x * 2 ^ (8 * (3 - n)) + n * 2 ^ 24) := by
      unfold getCompact
      dsimp only []
      rw [← hs, ← hn, if_pos hn3]
    have hmant : x * 2 ^ (8 * (3 - n)) < 2 ^ 24 := by
      have h1 : x * 2 ^ (8 * (3 - n)) < 2 ^ (8 * n) * 2 ^ (8 * (3 - n)) :=
        mul_lt_mul_of_pos_right hxn (Nat.pos_pow_of_pos _ (by norm_num))
      rw [← pow_add] at h1
      exact lt_of_lt_of_le h1 (Nat.pow_le_pow_right (by norm_num) (by omega))
    by_cases hbump : 2 ^ 23 ≤ x * 2 ^ (8 * (3 - n))
    · rw [hgc, if_pos hbump]
      have hc : x * 2 ^ (8 * (3 - n)) / 2 ^ 8 < 2 ^ 23 := by
        have : x * 2 ^ (8 * (3 - n)) / 2 ^ 8 < 2 ^ 24 / 2 ^ 8 + 1 := by omega
        omega
      rw [setCompactValue_pack _ _ hc]
      by_cases hnn : n + 1 ≤ 3
      · -- n ≤ 2 : re-dividing recovers the value exactly
        rw [if_pos hnn]
        refine ⟨0, ?_, Or.inl rfl⟩
        have hexp : 8 * (3 - n) = 8 * (3 - (n + 1)) + 8 := by omega
        rw [hexp, pow_add, ← Nat.mul_assoc, Nat.mul_div_cancel _
          (Nat.pos_pow_of_pos _ (by norm_num)),
          Nat.mul_div_cancel _ (Nat.pos_pow_of_pos _ (by norm_num))]
        simp
      · -- n = 3 : the mantissa was exactly x, one byte is truncated
        have hneq : n = 3 := by omega
        rw [if_neg hnn]
        refine ⟨8, ?_, Or.inr ?_⟩
        · have h30 : 8 * (3 - n) = 0 := by omega
          have h13 : 8 * (n + 1 - 3) = 8 := by omega
          rw [h30, h13, pow_zero, Nat.mul_one]
          refine Nat.mod_eq_of_lt ?_
          have hle : x / 2 ^ 8 * 2 ^ 8 ≤ x := Nat.div_mul_le_self x (2 ^ 8)
          simpa [U256] using lt_of_le_of_lt hle hx
        · have h30 : 8 * (3 - n) = 0 := by omega
          rw [h30, pow_zero, Nat.mul_one] at hbump
          exact hbump
    · rw [hgc, if_neg hbump]
      rw [setCompactValue_pack _ _ (by omega), if_pos hn3]
      refine ⟨0, ?_, Or.inl rfl⟩
      rw [Nat.mul_div_cancel _ (Nat.pos_pow_of_pos _ (by norm_num))]
      simp
  · -- large values: more than three significant bytes
    have hgc : getCompact x =
        (if 2 ^ 23 ≤ x / 2 ^ (8 * (n - 3))
         then x / 2 ^ (8 * (n - 3)) / 2 ^ 8 + (n + 1) * 2 ^ 24
         else x / 2 ^ (8 * (n - 3)) + n * 2 ^ 24) := by
      unfold getCompact
      dsimp only []
      rw [← hs, ← hn, if_neg hn3]
    have hmant24 : x / 2 ^ (8 * (n - 3)) < 2 ^ 24 := by
      refine Nat.div_lt_of_lt_mul ?_
      rw [← pow_add]
      exact lt_of_lt_of_le hxn (Nat.pow_le_pow_right (by norm_num) (by omega))
    have hmant16 : 2 ^ 16 ≤ x / 2 ^ (8 * (n - 3)) := by
      have h1 : 2 ^ (8 * (n - 1)) ≤ x :=
        le_trans (Nat.pow_le_pow_right (by norm_num) (by omega)) hs1
      have h2 : (2 : Nat) ^ (8 * (n - 1)) / 2 ^ (8 * (n - 3)) = 2 ^ 16 := by
        rw [Nat.pow_div (by omega) (by norm_num)]
        congr 1
        omega
      calc (2 : Nat) ^ 16 = 2 ^ (8 * (n - 1)) / 2 ^ (8 * (n - 3)) := h2.symm
        _ ≤ x / 2 ^ (8 * (n - 3)) := Nat.div_le_div_right h1
    by_cases hbump : 2 ^ 23 ≤ x / 2 ^ (8 * (n - 3))
    · rw [hgc, if_pos hbump]
      have hc : x / 2 ^ (8 * (n - 3)) / 2 ^ 8 < 2 ^ 23 := by omega
      rw [setCompactValue_pack _ _ hc, if_neg (by omega)]
      refine ⟨8 * (n - 3) + 8, ?_, Or.inr ?_⟩
      · rw [Nat.div_div_eq_div_mul, ← pow_add]
        have hexp : 8 * (n + 1 - 3) = 8 * (n - 3) + 8 := by omega
        rw [hexp]
        refine Nat.mod_eq_of_lt ?_
        have hle : x / 2 ^ (8 * (n - 3) + 8) * 2 ^ (8 * (n - 3) + 8) ≤ x :=
          Nat.div_mul_le_self x _
        simpa [U256] using lt_of_le_of_lt hle hx
      · have : 2 ^ 23 * 2 ^ (8 * (n - 3)) ≤ x := by
          rw [Nat.le_div_iff_mul_le (Nat.pos_pow_of_pos _ (by norm_num))] at hbump
          exact hbump
        calc (2 : Nat) ^ (8 * (n - 3) + 8 + 15) = 2 ^ 23 * 2 ^ (8 * (n - 3)) := by
              rw [← pow_add]
              congr 1
              omega
          _ ≤ x := this
    · rw [hgc, if_neg hbump]
      rw [setCompactValue_pack _ _ (by omega), if_neg (by omega)]
      refine ⟨8 * (n - 3), ?_, Or.inr ?_⟩
      · refine Nat.mod_eq_of_lt ?_
        have hle : x / 2 ^ (8 * (n - 3)) * 2 ^ (8 * (n - 3)) ≤ x :=
          Nat.div_mul_le_self x _
        simpa [U256] using lt_of_le_of_lt hle hx
      · have : 2 ^ 16 * 2 ^ (8 * (n - 3)) ≤ x := by
          rw [Nat.le_div_iff_mul_le (Nat.pos_pow_of_pos _ (by norm_num))] at hmant16
          exact hmant16
        calc (2 : Nat) ^ (8 * (n - 3) + 15) ≤ 2 ^ (8 * (n - 3) + 16) :=
              Nat.pow_le_pow_right (by norm_num) (by omega)
          _ = 2 ^ 16 * 2 ^ (8 * (n - 3)) := by
              rw [← pow_add]
              congr 1
              omega
          _ ≤ x := this

/-- The compact round-trip never increases a value. -/
theorem rt_le (x : Nat) (hx : x < 2 ^ 256) :
    setCompactValue (getCompact x) ≤ x := by
  obtain ⟨j, hj, _⟩ := rt_structure x hx
  rw [hj]
  exact Nat.div_mul_le_self x _

/-- The compact round-trip loses less than half of a value. -/
theorem rt_half (x : Nat) (hx : x < 2 ^ 256) :
    x / 2 ≤ setCompactValue (getCompact x) := by
  obtain ⟨j, hj, hb⟩ := rt_structure x hx
  rw [hj]
  rcases hb with hb | hb
  · subst hb
    simpa using Nat.div_le_self x 2
  · rw [pow_add] at hb
    have hdm := Nat.div_add_mod x (2 ^ j)
    rw [Nat.mul_comm] at hdm
    have hmlt : x % 2 ^ j < 2 ^ j :=
      Nat.mod_lt _ (Nat.pos_pow_of_pos _ (by norm_num))
    omega

/-! ### Claim C6 -/

/-- Under realistic parameters (positive bounded timespan, decoded old
target within a ceiling that has 32 leading zero bits), the upper
scaled target is exactly `old * 4` clamped to the ceiling. -/
theorem largestDifficultyTarget_eq (params : ConsensusParams) (old_nbits : Nat)
    (ht : 0 < params.nPowTargetTimespan)
    (ht4 : params.nPowTargetTimespan ≤ 2 ^ 30)
    (hL : params.powLimit < 2 ^ 224)
    (hold : setCompactValue old_nbits ≤ params.powLimit) :
    largestDifficultyTarget params old_nbits =
      if params.powLimit < 4 * setCompactValue old_nbits then params.powLimit
      else 4 * setCompactValue old_nbits := by
  unfold largestDifficultyTarget
  dsimp only []
  have ht4n : (params.nPowTargetTimespan * 4).toNat =
      4 * params.nPowTargetTimespan.toNat := by omega
  have hmul4 : setCompactValue old_nbits *
      (4 * params.nPowTargetTimespan.toNat) < U256 := by
    have h1 : setCompactValue old_nbits *
        (4 * params.nPowTargetTimespan.toNat) ≤ (2 ^ 224 - 1) * (4 * 2 ^ 30) :=
      Nat.mul_le_mul (by omega) (by omega)
    have h2 : ((2 : Nat) ^ 224 - 1) * (4 * 2 ^ 30) < 2 ^ 256 := by norm_num
    simpa [U256] using lt_of_le_of_lt h1 h2
  rw [ht4n, Nat.mod_eq_of_lt hmul4,
    show setCompactValue old_nbits * (4 * params.nPowTargetTimespan.toNat) =
      (4 * setCompactValue old_nbits) * params.nPowTargetTimespan.toNat by ring,
    Nat.mul_div_cancel _ (by omega)]

/-- The lower scaled target never exceeds the decoded old target. -/
theorem smallestDifficultyTarget_le (params : ConsensusParams) (old_nbits : Nat)
    (ht : 0 < params.nPowTargetTimespan)
    (ht4 : params.nPowTargetTimespan ≤ 2 ^ 30)
    (hL : params.powLimit < 2 ^ 224)
    (hold : setCompactValue old_nbits ≤ params.powLimit) :
    smallestDifficultyTarget params old_nbits ≤ setCompactValue old_nbits := by
  unfold smallestDifficultyTarget
  dsimp only []
  have htd : Int.tdiv params.nPowTargetTimespan 4 =
      params.nPowTargetTimespan / 4 :=
    Int.tdiv_eq_ediv (le_of_lt ht) (by norm_num)
  have hu : (Int.tdiv params.nPowTargetTimespan 4).toNat ≤
      params.nPowTargetTimespan.toNat := by
    rw [htd]
    omega
  have hmul : setCompactValue old_nbits *
      (Int.tdiv params.nPowTargetTimespan 4).toNat < U256 := by
    have h1 : setCompactValue old_nbits *
        (Int.tdiv params.nPowTargetTimespan 4).toNat ≤ 2 ^ 224 * 2 ^ 30 :=
      Nat.mul_le_mul (by omega) (by omega)
    have h2 : (2 : Nat) ^ 224 * 2 ^ 30 < 2 ^ 256 := by norm_num
    simpa [U256] using lt_of_le_of_lt h1 h2
  rw [Nat.mod_eq_of_lt hmul]
  have hdivle : setCompactValue old_nbits *
      (Int.tdiv params.nPowTargetTimespan 4).toNat /
      params.nPowTargetTimespan.toNat ≤ setCompactValue old_nbits := by
    calc setCompactValue old_nbits *
        (Int.tdiv params.nPowTargetTimespan 4).toNat /
        params.nPowTargetTimespan.toNat
        ≤ setCompactValue old_nbits * params.nPowTargetTimespan.toNat /
          params.nPowTargetTimespan.toNat :=
          Nat.div_le_div_right (Nat.mul_le_mul_left _ hu)
      _ = setCompactValue old_nbits := Nat.mul_div_cancel _ (by omega)
  split
  · omega
  · exact hdivle

/-- C6, counterexample: at a boundary height with the exemption off and an
old packed target decoding above the ceiling (100), re-submitting the very
same packed target is rejected, contradicting the claim that a 1× scaling
is always permitted; the claim's unclamped lower bound also differs from
the code's ceiling-clamped one at such inputs. -/
theorem claim_C6_counterexample :
    Int.tmod 2016 (2016 : Int) = 0 ∧
    PermittedDifficultyTransition
      ⟨100, 600, 1200, 4, 2016, 172800, false, false, ⟨5, 1000, 4369, 8738⟩⟩
      2016 50335744 50335744 = false := by
  constructor
  · decide
  · decide

/-- C6 (amended): at a boundary height with the exemption off, for
realistic parameters (positive timespan at most `2 ^ 30`, ceiling with 32
leading zero bits and stable under the compact round-trip) and an old
packed target decoding to at most the ceiling: re-submitting the old
target (1× scaling) is permitted, and any new target decoding above the
round-tripped ceiling-clamped `4×` bound, or below the round-tripped
ceiling-clamped `¼×` bound, is rejected. -/
theorem permitted_boundary (params : ConsensusParams) (height : Int)
    (old_nbits new_nbits : Nat)
    (hm : params.fPowAllowMinDifficultyBlocks = false)
    (hb : Int.tmod height params.difficultyAdjustmentInterval = 0)
    (ht : 0 < params.nPowTargetTimespan)
    (ht4 : params.nPowTargetTimespan ≤ 2 ^ 30)
    (hL : params.powLimit < 2 ^ 224)
    (hLrt : setCompactValue (getCompact params.powLimit) = params.powLimit)
    (hold : setCompactValue old_nbits ≤ params.powLimit) :
    PermittedDifficultyTransition params height old_nbits old_nbits = true ∧
    (setCompactValue (getCompact (largestDifficultyTarget params old_nbits)) <
        setCompactValue new_nbits →
      PermittedDifficultyTransition params height old_nbits new_nbits = false) ∧
    (setCompactValue new_nbits <
        setCompactValue (getCompact (smallestDifficultyTarget params old_nbits)) →
      PermittedDifficultyTransition params height old_nbits new_nbits = false) := by
  have hmaxge : setCompactValue old_nbits ≤
      setCompactValue (getCompact (largestDifficultyTarget params old_nbits)) := by
    rw [largestDifficultyTarget_eq params old_nbits ht ht4 hL hold]
    by_cases hc : params.powLimit < 4 * setCompactValue old_nbits
    · rw [if_pos hc, hLrt]
      exact hold
    · rw [if_neg hc]
      have h4v : 4 * setCompactValue old_nbits < 2 ^ 256 := by
        have : (2 : Nat) ^ 224 < 2 ^ 256 := by norm_num
        omega
      have hrh := rt_half (4 * setCompactValue old_nbits) h4v
      omega
  have hsmall256 : smallestDifficultyTarget params old_nbits < 2 ^ 256 := by
    have h1 := smallestDifficultyTarget_le params old_nbits ht ht4 hL hold
    have : (2 : Nat) ^ 224 < 2 ^ 256 := by norm_num
    omega
  have hminle : setCompactValue (getCompact
      (smallestDifficultyTarget params old_nbits)) ≤
      setCompactValue old_nbits :=
    le_trans (rt_le _ hsmall256)
      (smallestDifficultyTarget_le params old_nbits ht ht4 hL hold)
  refine ⟨?_, ?_, ?_⟩
  · unfold PermittedDifficultyTransition
    rw [hm]
    simp only [Bool.false_eq_true, if_false]
    rw [if_pos hb]
    rw [if_neg (by omega), if_neg (by omega)]
  · intro hgt
    unfold PermittedDifficultyTransition
    rw [hm]
    simp only [Bool.false_eq_true, if_false]
    rw [if_pos hb]
    rw [if_pos hgt]
  · intro hlt
    unfold PermittedDifficultyTransition
    rw [hm]
    simp only [Bool.false_eq_true, if_false]
    rw [if_pos hb]
    by_cases hgt : setCompactValue (getCompact
        (largestDifficultyTarget params old_nbits)) < setCompactValue new_nbits
    · rw [if_pos hgt]
    · rw [if_neg hgt, if_pos hlt]

/-- Witness for the amended C6 at concrete parameters: the identity
transition is accepted and a far larger target is rejected. -/
theorem permitted_boundary_witness :
    PermittedDifficultyTransition
      ⟨65536, 600, 1200, 400, 2016, 172800, false, false, ⟨5, 1000, 4369, 8738⟩⟩
      2016 50335744 50335744 = true ∧
    PermittedDifficultyTransition
      ⟨65536, 600, 1200, 400, 2016, 172800, false, false, ⟨5, 1000, 4369, 8738⟩⟩
      2016 50335744 67112960 = false := by
  have h := permitted_boundary
    ⟨65536, 600, 1200, 400, 2016, 172800, false, false, ⟨5, 1000, 4369, 8738⟩⟩
    2016 50335744 67112960 rfl (by decide) (by norm_num) (by norm_num)
    (by norm_num) (by decide) (by decide)
  exact ⟨h.1, h.2.1 (by decide)⟩

end Fractal
